import Mathlib

/-!
Verification of the Shopify lean-inventory reconciliation pipeline.

A shallow embedding of `newnewapp.py` (fuzzy title matcher, conflict
resolver, row filter / handle join), together with theorems settling the
specification claims about it.

Tables are modelled as a column-name list plus a list of rows; a cell is
`Option String` (`none` models a missing value / pandas `NaN`).  The
rapidfuzz similarity `fuzz.ratio` is the normalized Indel similarity
`200 * lcs(a,b) / (|a| + |b|)` (scored over `ℚ`, with the convention that
two empty strings score 100), and `process.extract` filters by
`score_cutoff`, sorts by descending score (ties keeping original order,
as `heapq.nlargest` does) and truncates to its default `limit` of 5.
-/

namespace NewNewApp

/-- A cell of a pandas DataFrame: `none` models NaN / a missing value. -/
abbrev Cell := Option String

/-- A pandas DataFrame: ordered column names and ordered rows of cells.
Each row is positionally aligned with `cols`. -/
structure Table where
  cols : List String
  rows : List (List Cell)
deriving Repr, DecidableEq

/-- Look a cell up by column name (first matching column), aligning the
row positionally with the column list.  Missing column or short row
gives `none` (NaN). -/
def cellOf : List String → List Cell → String → Cell
  | [], _, _ => none
  | _ :: _, [], _ => none
  | c :: cs, v :: vs, name => if c = name then v else cellOf cs vs name

/-- `str(x)` applied to a cell, as pandas `astype(str)` does: a NaN cell
becomes the string `"nan"`. -/
def strCell : Cell → String
  | some s => s
  | none => "nan"

/-- One step of the longest-common-subsequence recurrence: `lcs1 a prev`
is the LCS length of `a :: as` against the second list, where `prev` is
the LCS of `as` against arbitrary second lists.  Together with `lcs`
below this is the standard recurrence
`lcs (a :: as) (b :: bs) = if a = b then lcs as bs + 1
 else max (lcs (a :: as) bs) (lcs as (b :: bs))`,
arranged as structural recursion. -/
def lcs1 (a : Char) (prev : List Char → Nat) : List Char → Nat
  | [] => 0
  | b :: bs => if a = b then prev bs + 1 else max (lcs1 a prev bs) (prev (b :: bs))

/-- Length of the longest common subsequence of two character lists. -/
def lcs : List Char → List Char → Nat
  | [], _ => 0
  | a :: as, l₂ => lcs1 a (lcs as) l₂

/-- rapidfuzz `fuzz.ratio`: the normalized Indel similarity on a 0–100
scale.  The Indel distance is `|a| + |b| - 2·lcs(a,b)`, so the
similarity is `200·lcs(a,b) / (|a| + |b|)`; two empty strings score
100. -/
def ratio (a b : String) : ℚ :=
  if a.length + b.length = 0 then 100
  else mkRat (200 * (lcs a.toList b.toList : Int)) (a.length + b.length)

/-- The fraction built by `ratio` is the quotient
`200 * lcs(a,b) / (|a| + |b|)` in `ℚ`. -/
theorem ratio_eq_div (a b : String) (h : a.length + b.length ≠ 0) :
    ratio a b =
      200 * (lcs a.toList b.toList : ℚ) /
        ((a.length : ℚ) + (b.length : ℚ)) := by
  rw [ratio, if_neg h, Rat.mkRat_eq_div]
  push_cast
  ring

/-- A scored candidate: the choice string together with its score. -/
abbrev Scored := String × ℚ

/-- Insert a scored candidate into a descending-sorted list, after every
element whose score is at least as large (so equal scores keep their
arrival order: the stable descending order `heapq.nlargest` yields). -/
def insertDesc (x : Scored) : List Scored → List Scored
  | [] => [x]
  | y :: ys => if x.2 ≤ y.2 then y :: insertDesc x ys else x :: y :: ys

/-- Stable sort by descending score (insertion sort, inserting each
element after earlier elements of equal score). -/
def sortDesc (l : List Scored) : List Scored :=
  l.foldl (fun acc x => insertDesc x acc) []

/-- rapidfuzz `process.extract query choices scorer=fuzz.ratio
score_cutoff=cutoff`: score every choice, keep those whose score reaches
the cutoff, sort them by descending score (stable), and return at most
`limit` of them (the rapidfuzz default `limit` is 5). -/
def extract (query : String) (choices : List String) (cutoff : ℚ)
    (limit : Nat) : List Scored :=
  (sortDesc (((choices.map (fun c => (c, ratio query c))).filter
    (fun p => decide (cutoff ≤ p.2))))).take limit

/-- `inventory_df[Title].astype(str).tolist()`. -/
def invTitles (inv : Table) : List String :=
  inv.rows.map (fun r => strCell (cellOf inv.cols r "Title"))

/-- `inventory_df[inventory_df[Title] == t]`: the sub-DataFrame of the
rows whose Title cell equals the string `t` (a NaN cell never equals a
string). -/
def rowsWithTitle (inv : Table) (t : String) : Table :=
  ⟨inv.cols, inv.rows.filter (fun r => decide (cellOf inv.cols r "Title" = some t))⟩

/-- The result triple of `fuzzy_match_titles`: matched row sets,
unmatched titles, and the conflict-choices mapping (a python dict in
insertion order). -/
structure MatchOut where
  matched : List Table
  unmatched : List String
  conflicts : List (String × List String)
deriving Repr, DecidableEq

/-- `d[k] = v` on a python dict kept as an insertion-ordered association
list: overwriting an existing key keeps its position. -/
def dictInsert (k : String) (v : List String) :
    List (String × List String) → List (String × List String)
  | [] => [(k, v)]
  | (k', v') :: rest =>
    if k' = k then (k', v) :: rest else (k', v') :: dictInsert k v rest

/-- One iteration of the `for title in selected_titles` loop of
`fuzzy_match_titles`: extract the matches above the threshold, then
append to `unmatched_titles` (no match), to `matched_rows` (exactly one
match) or to `conflict_choices` (two or more matches). -/
def processTitle (inv : Table) (threshold : ℚ) (acc : MatchOut)
    (title : String) : MatchOut :=
  match extract title (invTitles inv) threshold 5 with
  | [] => { acc with unmatched := acc.unmatched ++ [title] }
  | [m] => { acc with matched := acc.matched ++ [rowsWithTitle inv m.1] }
  | ms => { acc with conflicts := dictInsert title (ms.map (·.1)) acc.conflicts }

/-- `fuzzy_match_titles(selected_titles, inventory_df, threshold=95)`.
Reading the Title column of `inventory_df` raises a `KeyError` when the inventory
has no Title column; this surfaces as `.error`.  Otherwise the selected
titles are processed in order by `processTitle`. -/
def fuzzy_match_titles (selected : List String) (inv : Table)
    (threshold : ℚ) : Except String MatchOut :=
  if "Title" ∈ inv.cols then
    .ok (selected.foldl (processTitle inv threshold) ⟨[], [], []⟩)
  else
    .error "KeyError: Title"

/-- `resolve_conflicts(conflict_choices, inventory_df)`: for each
conflicting title the external decision source supplies a choice
(`st.selectbox` over the candidates plus `"Skip"`); any choice other
than `"Skip"` contributes the inventory rows titled with that choice. -/
def resolve_conflicts (conflicts : List (String × List String))
    (inv : Table) (decision : String → String) : List Table :=
  conflicts.foldl
    (fun acc p =>
      if decision p.1 ≠ "Skip" then acc ++ [rowsWithTitle inv (decision p.1)]
      else acc)
    []

/-- The union of the column lists of the tables, in order of first
appearance, starting from `acc` (pandas `concat` with outer join and
no sorting aligns on this union). -/
def unionCols (acc : List String) : List Table → List String
  | [] => acc
  | t :: ts => unionCols (acc ++ t.cols.filter (fun c => !(acc.contains c))) ts

/-- Re-express the rows of `t` over the column list `cols`, filling
columns absent from `t` with NaN — how pandas `concat` aligns frames of
different schemas. -/
def reindex (cols : List String) (t : Table) : List (List Cell) :=
  t.rows.map (fun r => cols.map (cellOf t.cols r))

/-- `pd.concat(ts, ignore_index=True)`: raises
`ValueError: No objects to concatenate` on an empty list; otherwise
aligns every frame on the union of the column lists and stacks the
rows. -/
def pd_concat : List Table → Except String Table
  | [] => .error "ValueError: No objects to concatenate"
  | t :: ts =>
    let cols := unionCols t.cols ts
    .ok ⟨cols, ((t :: ts).map (reindex cols)).flatten⟩

/-- Core of `dedupFirst`: drop every element that occurred in `seen`,
keeping the first occurrence of each remaining element. -/
def dedupFirstAux {α : Type} [DecidableEq α] (seen : List α) :
    List α → List α
  | [] => []
  | x :: xs =>
    if x ∈ seen then dedupFirstAux seen xs
    else x :: dedupFirstAux (x :: seen) xs

/-- Remove duplicates keeping the first occurrence, as
`DataFrame.drop_duplicates` does (NaN cells compare equal to each
other there, which `Option` equality reproduces). -/
def dedupFirst {α : Type} [DecidableEq α] (l : List α) : List α :=
  dedupFirstAux [] l

/-- `pd.concat(matched + conflict_rows, ignore_index=True)` followed by
`drop_duplicates` — the construction of the filtered inventory. -/
def filtered_inventory (matched conflictRows : List Table) :
    Except String Table :=
  match pd_concat (matched ++ conflictRows) with
  | .error e => .error e
  | .ok t => .ok ⟨t.cols, dedupFirst t.rows⟩

/-- `product_df[Handle].isin(inventory_df[Handle])` as used by
`match_handles`: keep the product rows whose Handle cell occurs among
the Handle cells of the inventory. -/
def match_handles (product inv : Table) : Table :=
  ⟨product.cols,
    product.rows.filter (fun r =>
      (inv.rows.map (fun s => cellOf inv.cols s "Handle")).contains
        (cellOf product.cols r "Handle"))⟩

/-- Outcome of the product-filtering step: either the join ran and
produced a table, or it was skipped with the explicit
`Handle column missing` warning. -/
inductive ProductStep where
  | filtered (t : Table)
  | skipped
deriving Repr, DecidableEq

/-- The step guarded by `Handle in product_df.columns and Handle in
filtered_inventory.columns`: when both columns are present,
`match_handles` then `drop_duplicates`; otherwise the join is skipped
with a warning. -/
def product_step (product fi : Table) : ProductStep :=
  if "Handle" ∈ product.cols ∧ "Handle" ∈ fi.cols then
    .filtered ⟨product.cols, dedupFirst (match_handles product fi).rows⟩
  else
    .skipped

/-- One run of the matching pipeline (the body of the
`Proceed with Matching` branch): fuzzy-match the selected titles,
resolve the conflicts with the external `decision` source, build the
filtered inventory, then attempt the Handle join. -/
def run_pipeline (selected : List String) (inv product : Table)
    (decision : String → String) (threshold : ℚ) :
    Except String (Table × ProductStep) :=
  match fuzzy_match_titles selected inv threshold with
  | .error e => .error e
  | .ok out =>
    match filtered_inventory out.matched
        (resolve_conflicts out.conflicts inv decision) with
    | .error e => .error e
    | .ok fi => .ok (fi, product_step product fi)

/-! Helper lemmas about the stable descending sort used by `extract`. -/

/-- Descending order on scored candidates. -/
def scoreGE (a b : Scored) : Prop := b.2 ≤ a.2

/-- The titles of the inventory whose similarity to `t` reaches the
threshold, in inventory order and counting repeated occurrences — the
choices that `process.extract` retains before sorting and truncating. -/
def qualifying (t : String) (inv : Table) (th : ℚ) : List String :=
  (invTitles inv).filter (fun c => decide (th ≤ ratio t c))

/-- The scored qualifying list: the inventory titles paired with their
similarity to `t`, filtered by the threshold in inventory order — the
list `extract` sorts and truncates. -/
def scoredQualifying (t : String) (inv : Table) (th : ℚ) : List Scored :=
  ((invTitles inv).map (fun c => (c, ratio t c))).filter
    (fun p => decide (th ≤ p.2))

/-! Concrete tables used by counterexamples and witnesses. -/

/-- Inventory with two rows carrying the same title. -/
def invFoo : Table := ⟨["Title"], [[some "Foo"], [some "Foo"]]⟩

/-- Inventory with six distinct titles all similar to `"aa"`. -/
def invSix : Table :=
  ⟨["Title"],
    [[some "aa"], [some "ab"], [some "ba"], [some "aab"], [some "baa"],
      [some "aba"]]⟩

/-- The spec scenario inventory: Blue Hat and Blue Hatt. -/
def invBlueHat : Table := ⟨["Title"], [[some "Blue Hat"], [some "Blue Hatt"]]⟩

/-- The spec scenario inventory: Red Shirt and Red Shirt - Small. -/
def invRedShirt : Table :=
  ⟨["Title"], [[some "Red Shirt"], [some "Red Shirt - Small"]]⟩

/-- A one-column table with schema `["A"]`. -/
def tableA : Table := ⟨["A"], [[some "1"]]⟩

/-- A one-column table with schema `["B"]`. -/
def tableB : Table := ⟨["B"], [[some "2"]]⟩

/-- A one-row inventory used by the pipeline witness. -/
def invW : Table := ⟨["Title"], [[some "Foo"]]⟩

/-- A product table used by the pipeline witness. -/
def prodW : Table := ⟨["Handle"], []⟩

/-- The filtered inventory the pipeline witness produces. -/
def fiW : Table := ⟨["Title"], [[some "Foo"]]⟩

/-- A product table with a Handle column and a duplicate row. -/
def prodC6 : Table := ⟨["Handle"], [[some "h1"], [some "h3"], [some "h1"]]⟩

/-- A filtered inventory with a Handle column. -/
def fiC6 : Table := ⟨["Handle"], [[some "h1"], [some "h2"]]⟩


theorem insertDesc_perm (x : Scored) (l : List Scored) :
    (insertDesc x l).Perm (x :: l) := by
  induction l with
  | nil => exact List.Perm.refl _
  | cons y ys ih =>
    rw [insertDesc]
    split
    · exact (ih.cons y).trans (List.Perm.swap x y ys)
    · exact List.Perm.refl _

theorem mem_insertDesc {a x : Scored} {l : List Scored} :
    a ∈ insertDesc x l ↔ a = x ∨ a ∈ l := by
  rw [(insertDesc_perm x l).mem_iff, List.mem_cons]

theorem insertDesc_pairwise (x : Scored) (l : List Scored)
    (h : l.Pairwise scoreGE) : (insertDesc x l).Pairwise scoreGE := by
  induction l with
  | nil => simp [insertDesc, List.pairwise_singleton]
  | cons y ys ih =>
    rw [List.pairwise_cons] at h
    rw [insertDesc]
    split
    · rename_i hle
      rw [List.pairwise_cons]
      refine ⟨fun z hz => ?_, ih h.2⟩
      rcases mem_insertDesc.mp hz with rfl | hz
      · exact hle
      · exact h.1 z hz
    · rename_i hgt
      push_neg at hgt
      rw [List.pairwise_cons]
      refine ⟨fun z hz => ?_, List.pairwise_cons.mpr h⟩
      rcases List.mem_cons.mp hz with rfl | hz
      · exact le_of_lt hgt
      · exact le_trans (h.1 z hz) (le_of_lt hgt)

theorem insertDesc_filter_key (x : Scored) (l : List Scored) (v : ℚ)
    (h : l.Pairwise scoreGE) :
    (insertDesc x l).filter (fun p => decide (p.2 = v)) =
      l.filter (fun p => decide (p.2 = v)) ++ (if x.2 = v then [x] else []) := by
  induction l with
  | nil => by_cases hxv : x.2 = v <;> simp [insertDesc, hxv]
  | cons y ys ih =>
    rw [List.pairwise_cons] at h
    rw [insertDesc]
    split
    · rename_i hle
      rw [List.filter_cons, List.filter_cons]
      split
      · rw [ih h.2, List.cons_append]
      · exact ih h.2
    · rename_i hgt
      push_neg at hgt
      by_cases hxv : x.2 = v
      · have hnil : (y :: ys).filter (fun p => decide (p.2 = v)) = [] := by
          rw [List.filter_eq_nil_iff]
          intro a ha
          have hav : a.2 ≤ y.2 := by
            rcases List.mem_cons.mp ha with rfl | ha
            · exact le_refl _
            · exact h.1 a ha
          have : a.2 < v := lt_of_le_of_lt hav (hxv ▸ hgt)
          simp [ne_of_lt this]
        rw [hnil, List.filter_cons]
        simp [hxv, hnil]
      · rw [List.filter_cons]
        split
        · rename_i hx
          exact absurd (of_decide_eq_true hx) hxv
        · simp [hxv]

theorem foldl_insertDesc_perm (l acc : List Scored) :
    (l.foldl (fun a x => insertDesc x a) acc).Perm (acc ++ l) := by
  induction l generalizing acc with
  | nil => simp
  | cons x xs ih =>
    rw [List.foldl_cons]
    refine (ih (insertDesc x acc)).trans ?_
    refine (((insertDesc_perm x acc).append_right xs).trans ?_)
    exact (List.perm_middle).symm

theorem foldl_insertDesc_pairwise (l acc : List Scored)
    (h : acc.Pairwise scoreGE) :
    (l.foldl (fun a x => insertDesc x a) acc).Pairwise scoreGE := by
  induction l generalizing acc with
  | nil => exact h
  | cons x xs ih => exact ih _ (insertDesc_pairwise x acc h)

theorem foldl_insertDesc_filter_key (v : ℚ) (l acc : List Scored)
    (h : acc.Pairwise scoreGE) :
    (l.foldl (fun a x => insertDesc x a) acc).filter (fun p => decide (p.2 = v)) =
      acc.filter (fun p => decide (p.2 = v)) ++ l.filter (fun p => decide (p.2 = v)) := by
  induction l generalizing acc with
  | nil => simp
  | cons x xs ih =>
    rw [List.foldl_cons, ih _ (insertDesc_pairwise x acc h),
      insertDesc_filter_key x acc v h, List.filter_cons]
    by_cases hxv : x.2 = v
    · simp [hxv, List.append_assoc]
    · simp [hxv]

theorem sortDesc_perm (l : List Scored) : (sortDesc l).Perm l := by
  simpa using foldl_insertDesc_perm l []

theorem sortDesc_pairwise (l : List Scored) : (sortDesc l).Pairwise scoreGE :=
  foldl_insertDesc_pairwise l [] List.Pairwise.nil

theorem sortDesc_filter_key (l : List Scored) (v : ℚ) :
    (sortDesc l).filter (fun p => decide (p.2 = v)) =
      l.filter (fun p => decide (p.2 = v)) := by
  simpa using foldl_insertDesc_filter_key v l [] List.Pairwise.nil

theorem scored_filter_eq (q : String) (choices : List String) (cutoff : ℚ) :
    (choices.map (fun c => (c, ratio q c))).filter (fun p => decide (cutoff ≤ p.2)) =
      (choices.filter (fun c => decide (cutoff ≤ ratio q c))).map
        (fun c => (c, ratio q c)) := by
  induction choices with
  | nil => rfl
  | cons c cs ih =>
    rw [List.map_cons, List.filter_cons, List.filter_cons]
    by_cases h : cutoff ≤ ratio q c <;> simp [h, ih]

theorem length_extract (q : String) (choices : List String) (cutoff : ℚ)
    (limit : Nat) :
    (extract q choices cutoff limit).length =
      min limit (choices.filter (fun c => decide (cutoff ≤ ratio q c))).length := by
  rw [extract, List.length_take, (sortDesc_perm _).length_eq, scored_filter_eq,
    List.length_map]

theorem length_extract_title (inv : Table) (th : ℚ) (t : String) :
    (extract t (invTitles inv) th 5).length = min 5 (qualifying t inv th).length :=
  length_extract t (invTitles inv) th 5

theorem processTitle_of_no_match (inv : Table) (th : ℚ) (acc : MatchOut)
    (t : String) (h : (qualifying t inv th).length = 0) :
    processTitle inv th acc t = { acc with unmatched := acc.unmatched ++ [t] } := by
  have hlen : (extract t (invTitles inv) th 5).length = 0 := by
    rw [length_extract_title, h]
    decide
  have hnil : extract t (invTitles inv) th 5 = [] := List.length_eq_zero.mp hlen
  rw [processTitle, hnil]

theorem processTitle_of_one_match (inv : Table) (th : ℚ) (acc : MatchOut)
    (t : String) (h : (qualifying t inv th).length = 1) :
    ∃ s : String, processTitle inv th acc t =
      { acc with matched := acc.matched ++ [rowsWithTitle inv s] } := by
  have hlen : (extract t (invTitles inv) th 5).length = 1 := by
    rw [length_extract_title, h]
    decide
  obtain ⟨m, hm⟩ := List.length_eq_one.mp hlen
  exact ⟨m.1, by rw [processTitle, hm]⟩

theorem processTitle_of_conflict (inv : Table) (th : ℚ) (acc : MatchOut)
    (t : String) (h : 2 ≤ (qualifying t inv th).length) :
    processTitle inv th acc t =
      { acc with conflicts :=
          dictInsert t ((extract t (invTitles inv) th 5).map (·.1)) acc.conflicts } := by
  have hlen : 2 ≤ (extract t (invTitles inv) th 5).length := by
    rw [length_extract_title]
    omega
  rcases hE : extract t (invTitles inv) th 5 with _ | ⟨a, _ | ⟨b, r⟩⟩
  · rw [hE] at hlen
    simp at hlen
  · rw [hE] at hlen
    simp at hlen
  · rw [processTitle, hE]

/-! Helper lemmas about deduplication and concatenation. -/

theorem mem_dedupFirstAux {α : Type} [DecidableEq α] (a : α) :
    ∀ (l seen : List α), a ∈ dedupFirstAux seen l ↔ a ∈ l ∧ a ∉ seen := by
  intro l
  induction l with
  | nil => intro seen; simp [dedupFirstAux]
  | cons x xs ih =>
    intro seen
    rw [dedupFirstAux]
    split
    · rename_i hx
      rw [ih]
      simp only [List.mem_cons]
      constructor
      · rintro ⟨h1, h2⟩
        exact ⟨.inr h1, h2⟩
      · rintro ⟨rfl | h1, h2⟩
        · exact absurd hx h2
        · exact ⟨h1, h2⟩
    · rename_i hx
      rw [List.mem_cons, ih]
      simp only [List.mem_cons]
      constructor
      · rintro (rfl | ⟨h1, h2⟩)
        · exact ⟨.inl rfl, hx⟩
        · exact ⟨.inr h1, fun hs => h2 (.inr hs)⟩
      · rintro ⟨rfl | h1, h2⟩
        · exact .inl rfl
        · by_cases hax : a = x
          · exact .inl hax
          · exact .inr ⟨h1, fun hs => (hs.elim hax h2 : False)⟩

theorem nodup_dedupFirstAux {α : Type} [DecidableEq α] :
    ∀ (l seen : List α), (dedupFirstAux seen l).Nodup := by
  intro l
  induction l with
  | nil => intro seen; simp [dedupFirstAux]
  | cons x xs ih =>
    intro seen
    rw [dedupFirstAux]
    split
    · exact ih _
    · rw [List.nodup_cons]
      refine ⟨fun hmem => ?_, ih _⟩
      have := (mem_dedupFirstAux x xs (x :: seen)).mp hmem
      exact this.2 (List.mem_cons_self x seen)

theorem mem_dedupFirst {α : Type} [DecidableEq α] (a : α) (l : List α) :
    a ∈ dedupFirst l ↔ a ∈ l := by
  rw [dedupFirst, mem_dedupFirstAux]
  simp

theorem nodup_dedupFirst {α : Type} [DecidableEq α] (l : List α) :
    (dedupFirst l).Nodup :=
  nodup_dedupFirstAux l []

theorem unionCols_eq_of_subset (ts : List Table) :
    ∀ acc : List String, (∀ u ∈ ts, ∀ x ∈ u.cols, x ∈ acc) →
      unionCols acc ts = acc := by
  induction ts with
  | nil => intro acc _; rfl
  | cons t ts ih =>
    intro acc h
    rw [unionCols]
    have hnil : t.cols.filter (fun c => !(acc.contains c)) = [] := by
      rw [List.filter_eq_nil_iff]
      intro c hc
      have hmem : c ∈ acc := h t (List.mem_cons_self t ts) c hc
      simp [List.contains]
      exact hmem
    rw [hnil, List.append_nil]
    exact ih acc (fun u hu => h u (List.mem_cons_of_mem t hu))

theorem map_cellOf_self :
    ∀ (cols : List String) (r : List Cell), cols.Nodup →
      r.length = cols.length → cols.map (cellOf cols r) = r
  | [], [], _, _ => rfl
  | [], _ :: _, _, h => by simp at h
  | _ :: _, [], _, h => by simp at h
  | c :: cs, v :: vs, hnd, hlen => by
    rw [List.nodup_cons] at hnd
    rw [List.length_cons, List.length_cons] at hlen
    rw [List.map_cons]
    have h1 : cellOf (c :: cs) (v :: vs) c = v := by
      rw [cellOf, if_pos rfl]
    have h2 : cs.map (cellOf (c :: cs) (v :: vs)) = cs.map (cellOf cs vs) := by
      refine List.map_congr_left (fun a ha => ?_)
      have : c ≠ a := fun hca => hnd.1 (hca ▸ ha)
      rw [cellOf, if_neg this]
    rw [h1, h2, map_cellOf_self cs vs hnd.2 (Nat.succ_injective hlen)]

theorem reindex_self (c : List String) (u : Table) (hu : u.cols = c)
    (hc : c.Nodup) (hlen : ∀ r ∈ u.rows, r.length = c.length) :
    reindex c u = u.rows := by
  rw [reindex, hu]
  have : ∀ r ∈ u.rows, c.map (cellOf c r) = r := fun r hr =>
    map_cellOf_self c r hc (hlen r hr)
  calc u.rows.map (fun r => c.map (cellOf c r)) = u.rows.map id :=
        List.map_congr_left this
    _ = u.rows := List.map_id u.rows

theorem pd_concat_same_schema (ts : List Table) (c : List String)
    (hc : c.Nodup) (hcols : ∀ u ∈ ts, u.cols = c)
    (hlen : ∀ u ∈ ts, ∀ r ∈ u.rows, r.length = c.length) (hne : ts ≠ []) :
    pd_concat ts = .ok ⟨c, (ts.map Table.rows).flatten⟩ := by
  cases ts with
  | nil => exact absurd rfl hne
  | cons t rest =>
    have htc : t.cols = c := hcols t (by simp)
    have hcu : unionCols t.cols rest = c := by
      rw [htc]
      exact unionCols_eq_of_subset rest c
        (fun u hu x hx => (hcols u (List.mem_cons_of_mem t hu)) ▸ hx)
    rw [pd_concat]
    simp only [hcu]
    have hmaps : (t :: rest).map (reindex c) = (t :: rest).map Table.rows :=
      List.map_congr_left (fun u hu =>
        reindex_self c u (hcols u hu) hc (hlen u hu))
    rw [hmaps]

/-! Provenance lemmas: every row set the matcher or the resolver emits is
a Title-filtered sub-DataFrame of the inventory. -/

theorem resolve_conflicts_foldl (inv : Table) (d : String → String)
    (l : List (String × List String)) :
    ∀ acc : List Table,
      l.foldl
        (fun acc p =>
          if d p.1 ≠ "Skip" then acc ++ [rowsWithTitle inv (d p.1)] else acc)
        acc =
      acc ++ (l.filter (fun p => decide (d p.1 ≠ "Skip"))).map
        (fun p => rowsWithTitle inv (d p.1)) := by
  induction l with
  | nil => intro acc; simp
  | cons p ps ih =>
    intro acc
    rw [List.foldl_cons, List.filter_cons]
    by_cases hp : d p.1 ≠ "Skip"
    · rw [if_pos hp, ih, if_pos (by simpa using hp), List.map_cons,
        List.append_assoc, List.singleton_append]
    · rw [if_neg hp, ih, if_neg (by simpa using hp)]

theorem resolve_conflicts_eq (conflicts : List (String × List String))
    (inv : Table) (d : String → String) :
    resolve_conflicts conflicts inv d =
      (conflicts.filter (fun p => decide (d p.1 ≠ "Skip"))).map
        (fun p => rowsWithTitle inv (d p.1)) := by
  rw [resolve_conflicts, resolve_conflicts_foldl, List.nil_append]

theorem processTitle_matched_provenance (inv : Table) (th : ℚ)
    (acc : MatchOut) (t : String) (u : Table)
    (hu : u ∈ (processTitle inv th acc t).matched) :
    u ∈ acc.matched ∨ ∃ s : String, u = rowsWithTitle inv s := by
  rw [processTitle] at hu
  rcases hE : extract t (invTitles inv) th 5 with _ | ⟨a, _ | ⟨b, r⟩⟩ <;>
    rw [hE] at hu
  · exact .inl hu
  · rcases List.mem_append.mp hu with h | h
    · exact .inl h
    · exact .inr ⟨a.1, (List.mem_singleton.mp h)⟩
  · exact .inl hu

theorem foldl_processTitle_matched (inv : Table) (th : ℚ)
    (l : List String) :
    ∀ (acc : MatchOut) (u : Table),
      u ∈ (l.foldl (processTitle inv th) acc).matched →
      u ∈ acc.matched ∨ ∃ s : String, u = rowsWithTitle inv s := by
  induction l with
  | nil => intro acc u hu; exact .inl hu
  | cons t ts ih =>
    intro acc u hu
    rw [List.foldl_cons] at hu
    rcases ih (processTitle inv th acc t) u hu with h | h
    · exact processTitle_matched_provenance inv th acc t u h
    · exact .inr h

theorem fuzzy_matched_provenance (selected : List String) (inv : Table)
    (th : ℚ) (out : MatchOut)
    (hout : fuzzy_match_titles selected inv th = .ok out) (u : Table)
    (hu : u ∈ out.matched) : ∃ s : String, u = rowsWithTitle inv s := by
  rw [fuzzy_match_titles] at hout
  split at hout
  · rcases foldl_processTitle_matched inv th selected ⟨[], [], []⟩ u
      (by rw [Except.ok.injEq] at hout; rw [hout]; exact hu) with h | h
    · simp at h
    · exact h
  · exact absurd hout (by simp)

theorem mem_dictInsert (p : String × List String) (k : String)
    (v : List String) :
    ∀ l : List (String × List String),
      p ∈ dictInsert k v l → p = (k, v) ∨ p ∈ l := by
  intro l
  induction l with
  | nil =>
    intro h
    exact .inl (List.mem_singleton.mp h)
  | cons q rest ih =>
    intro h
    obtain ⟨k', v'⟩ := q
    rw [dictInsert] at h
    by_cases hk : k' = k
    · rw [if_pos hk] at h
      rcases List.mem_cons.mp h with rfl | hmem
      · exact .inl (by rw [hk])
      · exact .inr (List.mem_cons_of_mem _ hmem)
    · rw [if_neg hk] at h
      rcases List.mem_cons.mp h with rfl | hmem
      · exact .inr (List.mem_cons_self _ _)
      · rcases ih hmem with h1 | h1
        · exact .inl h1
        · exact .inr (List.mem_cons_of_mem _ h1)

theorem processTitle_conflicts_provenance (inv : Table) (th : ℚ)
    (acc : MatchOut) (s t : String) (L : List String)
    (hmem : (t, L) ∈ (processTitle inv th acc s).conflicts) :
    (t, L) ∈ acc.conflicts ∨
      (2 ≤ (qualifying t inv th).length ∧
        L = (extract t (invTitles inv) th 5).map (·.1)) := by
  rw [processTitle] at hmem
  rcases hE : extract s (invTitles inv) th 5 with _ | ⟨a, _ | ⟨b, r⟩⟩ <;>
    rw [hE] at hmem
  · exact .inl hmem
  · exact .inl hmem
  · rcases mem_dictInsert (t, L) s ((a :: b :: r).map (·.1)) acc.conflicts
      hmem with heq | hold
    · rw [Prod.mk.injEq] at heq
      obtain ⟨rfl, rfl⟩ := heq
      refine .inr ⟨?_, by rw [hE]⟩
      have hlen := length_extract_title inv th t
      rw [hE] at hlen
      simp only [List.length_cons] at hlen
      have hmin : min 5 (qualifying t inv th).length ≤
          (qualifying t inv th).length := Nat.min_le_right _ _
      omega
    · exact .inl hold

theorem foldl_processTitle_conflicts (inv : Table) (th : ℚ)
    (l : List String) :
    ∀ (acc : MatchOut) (t : String) (L : List String),
      (t, L) ∈ (l.foldl (processTitle inv th) acc).conflicts →
      (t, L) ∈ acc.conflicts ∨
        (2 ≤ (qualifying t inv th).length ∧
          L = (extract t (invTitles inv) th 5).map (·.1)) := by
  induction l with
  | nil =>
    intro acc t L h
    exact .inl h
  | cons s ss ih =>
    intro acc t L h
    rw [List.foldl_cons] at h
    rcases ih (processTitle inv th acc s) t L h with h1 | h1
    · exact processTitle_conflicts_provenance inv th acc s t L h1
    · exact .inr h1

theorem fuzzy_conflicts_provenance (selected : List String) (inv : Table)
    (th : ℚ) (out : MatchOut)
    (hout : fuzzy_match_titles selected inv th = .ok out) (t : String)
    (L : List String) (hmem : (t, L) ∈ out.conflicts) :
    2 ≤ (qualifying t inv th).length ∧
      L = (extract t (invTitles inv) th 5).map (·.1) := by
  rw [fuzzy_match_titles] at hout
  split at hout
  · rw [Except.ok.injEq] at hout
    rcases foldl_processTitle_conflicts inv th selected ⟨[], [], []⟩ t L
      (by rw [hout]; exact hmem) with h | h
    · simp at h
    · exact h
  · exact absurd hout (by simp)

theorem scoredQualifying_snd (t : String) (inv : Table) (th : ℚ) :
    ∀ p ∈ scoredQualifying t inv th, p.2 = ratio t p.1 := by
  intro p hp
  rw [scoredQualifying] at hp
  have hp2 := List.mem_of_mem_filter hp
  rcases List.mem_map.mp hp2 with ⟨c, _, rfl⟩
  rfl

theorem map_fst_pairs (t : String) :
    ∀ l : List Scored, (∀ p ∈ l, p.2 = ratio t p.1) →
      (l.map (·.1)).map (fun c => (c, ratio t c)) = l := by
  intro l
  induction l with
  | nil => intro _; rfl
  | cons p ps ih =>
    intro h
    rw [List.map_cons, List.map_cons,
      ih (fun q hq => h q (List.mem_cons_of_mem p hq))]
    have hp := h p (List.mem_cons_self p ps)
    have hpp : ((p.1, ratio t p.1) : Scored) = p := by
      rw [← hp]
    rw [hpp]

theorem length_scoredQualifying (t : String) (inv : Table) (th : ℚ) :
    (scoredQualifying t inv th).length = (qualifying t inv th).length := by
  rw [scoredQualifying, qualifying, scored_filter_eq, List.length_map]

theorem rowsWithTitle_cols (inv : Table) (s : String) :
    (rowsWithTitle inv s).cols = inv.cols := rfl

theorem rowsWithTitle_rows_subset (inv : Table) (s : String) :
    ∀ r ∈ (rowsWithTitle inv s).rows, r ∈ inv.rows := by
  intro r hr
  exact List.mem_of_mem_filter hr

/-! The claims. -/

/-- C3: the Title Matcher never raises for valid inputs — whenever the
inventory has a Title column it returns a result — and a missing Title
column is signalled to the caller as an error (the `KeyError` the
column access raises) rather than silently matching nothing. -/
theorem C3_missing_title_column_signalled (selected : List String)
    (inv : Table) (th : ℚ) :
    ("Title" ∈ inv.cols →
      ∃ out, fuzzy_match_titles selected inv th = .ok out) ∧
    ("Title" ∉ inv.cols →
      fuzzy_match_titles selected inv th = .error "KeyError: Title") := by
  constructor
  · intro h
    exact ⟨_, by rw [fuzzy_match_titles, if_pos h]⟩
  · intro h
    rw [fuzzy_match_titles, if_neg h]

/-- Witness for C3 at concrete inventories with and without a Title
column. -/
theorem C3_witness :
    (∃ out, fuzzy_match_titles ["x"] ⟨["Title"], []⟩ 95 = .ok out) ∧
    fuzzy_match_titles ["x"] ⟨["A"], [[some "y"]]⟩ 95 =
      .error "KeyError: Title" :=
  ⟨(C3_missing_title_column_signalled ["x"] ⟨["Title"], []⟩ 95).1 (by decide),
    (C3_missing_title_column_signalled ["x"] ⟨["A"], [[some "y"]]⟩ 95).2
      (by decide)⟩

/-- C7: the conflict resolver contributes nothing for a title whose
decision is the skip sentinel `"Skip"`, and for any other decision it
contributes exactly the inventory rows whose Title equals the chosen
candidate (`rowsWithTitle`), one row set per non-skipped conflict, in
conflict order.  (In the source the skip decision and a candidate
literally named `"Skip"` are the same selectbox event, so the skip
sentinel is the string `"Skip"`.) -/
theorem C7_resolution_contributions (conflicts : List (String × List String))
    (inv : Table) (d : String → String) :
    resolve_conflicts conflicts inv d =
      (conflicts.filter (fun p => decide (d p.1 ≠ "Skip"))).map
        (fun p => rowsWithTitle inv (d p.1)) :=
  resolve_conflicts_eq conflicts inv d

/-- C8: the Title Matcher is deterministic — it is a pure function of
the selected titles, the inventory table and the threshold (the
embedding reads no other state, matching the source, which consults
nothing beyond its arguments), so two runs on identical inputs produce
identical outputs. -/
theorem C8_matcher_deterministic (selected : List String) (inv : Table)
    (th : ℚ) :
    fuzzy_match_titles selected inv th = fuzzy_match_titles selected inv th :=
  rfl

/-- C9: on an empty list of selected titles (and an inventory that has a
Title column, so that the matcher does not raise), all three outputs are
empty. -/
theorem C9_empty_selected (inv : Table) (th : ℚ)
    (h : "Title" ∈ inv.cols) :
    fuzzy_match_titles [] inv th = .ok ⟨[], [], []⟩ := by
  rw [fuzzy_match_titles, if_pos h, List.foldl_nil]

/-- Witness for C9 at a concrete inventory. -/
theorem C9_witness :
    fuzzy_match_titles [] ⟨["Title"], [[some "Foo"]]⟩ 95 = .ok ⟨[], [], []⟩ :=
  C9_empty_selected ⟨["Title"], [[some "Foo"]]⟩ 95 (by decide)

/-- C10: when the matching pass contributes no row sets and conflict
resolution contributes no row sets, building the filtered inventory is
`pd.concat` of an empty list, which raises
`ValueError: No objects to concatenate` instead of returning an empty
table. -/
theorem C10_empty_concat_raises (matched conflictRows : List Table)
    (hm : matched = []) (hc : conflictRows = []) :
    filtered_inventory matched conflictRows =
      .error "ValueError: No objects to concatenate" := by
  subst hm
  subst hc
  rfl

/-- Witness for C10 at the empty row-set lists. -/
theorem C10_witness :
    filtered_inventory [] [] =
      .error "ValueError: No objects to concatenate" :=
  C10_empty_concat_raises [] [] rfl rfl

/-- C1 counterexample: with inventory `invFoo` (the title `"Foo"` on two
rows) there is exactly ONE distinct inventory title scoring at or above
the threshold 95 for the selected title `"Foo"`, so the claim predicts
UniqueMatch; the matcher instead classifies it Ambiguous (empty
`matched`, a `"Foo"` entry in `conflicts`), because it counts title
occurrences, not distinct titles. -/
theorem C1_counterexample :
    (dedupFirst (qualifying "Foo" invFoo 95)).length = 1 ∧
    fuzzy_match_titles ["Foo"] invFoo 95 =
      .ok ⟨[], [], [("Foo", ["Foo", "Foo"])]⟩ := by
  constructor
  · decide
  · rfl

/-- C1 (corrected): the classification is exactly one of
{Unmatched, UniqueMatch, Ambiguous}, determined by the number of
inventory title OCCURRENCES scoring at or above the threshold (entries
of the inventory Title column, duplicates counted separately): zero
occurrences appends the title to `unmatched`, exactly one appends a
Title-filtered row set to `matched`, two or more record an entry in
`conflicts`.  Stated for one loop iteration (`processTitle`) from an
arbitrary accumulated state, which is how `fuzzy_match_titles` processes
every selected title. -/
theorem C1_classification_by_occurrences (inv : Table) (th : ℚ)
    (acc : MatchOut) (t : String) :
    ((qualifying t inv th).length = 0 →
      processTitle inv th acc t =
        { acc with unmatched := acc.unmatched ++ [t] }) ∧
    ((qualifying t inv th).length = 1 →
      ∃ s, processTitle inv th acc t =
        { acc with matched := acc.matched ++ [rowsWithTitle inv s] }) ∧
    (2 ≤ (qualifying t inv th).length →
      processTitle inv th acc t =
        { acc with conflicts :=
            (dictInsert t ((extract t (invTitles inv) th 5).map (·.1))
              acc.conflicts) }) :=
  ⟨processTitle_of_no_match inv th acc t,
    processTitle_of_one_match inv th acc t,
    processTitle_of_conflict inv th acc t⟩

/-- Witness for C1 at the spec Red Shirt scenario: exactly one
qualifying occurrence, classified as a unique match. -/
theorem C1_witness :
    (qualifying "Red Shirt" invRedShirt 95).length = 1 ∧
    (∃ s, processTitle invRedShirt 95 ⟨[], [], []⟩ "Red Shirt" =
      { matched := [rowsWithTitle invRedShirt s], unmatched := [],
        conflicts := [] }) :=
  ⟨by decide,
    (C1_classification_by_occurrences invRedShirt 95 ⟨[], [], []⟩
      "Red Shirt").2.1 (by decide)⟩

/-- C2 counterexample: for the selected title `"aa"` against `invSix`
at threshold 50, the inventory title `"ba"` scores at or above the
threshold, yet the conflict candidate list omits it — `process.extract`
truncates to its default limit of 5 candidates. -/
theorem C2_counterexample :
    "ba" ∈ qualifying "aa" invSix 50 ∧
    fuzzy_match_titles ["aa"] invSix 50 =
      .ok ⟨[], [], [("aa", ["aa", "aab", "baa", "aba", "ab"])]⟩ ∧
    "ba" ∉ ["aa", "aab", "baa", "aba", "ab"] := by
  refine ⟨by decide, by rfl, by decide⟩

/-- C2 (corrected): in any run of the Title Matcher, every entry
`(t, L)` of the conflict map comes from an Ambiguous title (at least 2
qualifying occurrences) and its candidate list `L` is the qualifying
inventory title occurrences (scoring at or above the threshold) sorted
by descending similarity score with ties broken by original inventory
order, TRUNCATED to the 5 best (the rapidfuzz `process.extract` default
limit).  Concretely: `L` is the stable descending sort of the scored
qualifying list cut to 5; `L` has length `min 5` the qualifying count;
the scores along `L` are descending; entries of any fixed score keep
their inventory order in the sort; and whenever at most 5 occurrences
qualify, NO candidate is omitted — `L` scored is a permutation of the
whole qualifying list (hence, with the previous two points, exactly its
stable descending ordering). -/
theorem C2_conflict_candidates (selected : List String) (inv : Table)
    (th : ℚ) (out : MatchOut) (t : String) (L : List String)
    (hrun : fuzzy_match_titles selected inv th = .ok out)
    (hmem : (t, L) ∈ out.conflicts) :
    2 ≤ (qualifying t inv th).length ∧
    L = ((sortDesc (scoredQualifying t inv th)).take 5).map (·.1) ∧
    L.length = min 5 (qualifying t inv th).length ∧
    (L.map (fun c => (c, ratio t c))).Pairwise scoreGE ∧
    (∀ v : ℚ,
      (sortDesc (scoredQualifying t inv th)).filter
          (fun p => decide (p.2 = v)) =
        (scoredQualifying t inv th).filter (fun p => decide (p.2 = v))) ∧
    ((qualifying t inv th).length ≤ 5 →
      (L.map (fun c => (c, ratio t c))).Perm (scoredQualifying t inv th)) := by
  obtain ⟨h2, hL0⟩ :=
    fuzzy_conflicts_provenance selected inv th out hrun t L hmem
  have hL : L = ((sortDesc (scoredQualifying t inv th)).take 5).map (·.1) :=
    hL0
  have hsnd : ∀ p ∈ (sortDesc (scoredQualifying t inv th)).take 5,
      p.2 = ratio t p.1 := by
    intro p hp
    exact scoredQualifying_snd t inv th p
      ((sortDesc_perm _).mem_iff.mp (List.take_subset 5 _ hp))
  have hback : (((sortDesc (scoredQualifying t inv th)).take 5).map
      (·.1)).map (fun c => (c, ratio t c)) =
      (sortDesc (scoredQualifying t inv th)).take 5 :=
    map_fst_pairs t _ hsnd
  refine ⟨h2, hL, ?_, ?_, sortDesc_filter_key _, fun hle => ?_⟩
  · rw [hL, List.length_map, List.length_take, (sortDesc_perm _).length_eq,
      length_scoredQualifying]
  · rw [hL, hback]
    exact List.Pairwise.sublist (List.take_sublist 5 _) (sortDesc_pairwise _)
  · have htake : (sortDesc (scoredQualifying t inv th)).take 5 =
        sortDesc (scoredQualifying t inv th) := by
      refine List.take_of_length_le ?_
      rw [(sortDesc_perm _).length_eq, length_scoredQualifying]
      exact hle
    rw [hL, hback, htake]
    exact sortDesc_perm _

/-- Witness for C2 at the spec Blue Hat scenario: a full matcher run in
which `"Blue Hat"` is Ambiguous with two qualifying candidates at
threshold 80, listed best score first. -/
theorem C2_witness :
    2 ≤ (qualifying "Blue Hat" invBlueHat 80).length ∧
    ["Blue Hat", "Blue Hatt"] =
      ((sortDesc (scoredQualifying "Blue Hat" invBlueHat 80)).take 5).map
        (·.1) := by
  have h := C2_conflict_candidates ["Blue Hat"] invBlueHat 80
    ⟨[], [], [("Blue Hat", ["Blue Hat", "Blue Hatt"])]⟩ "Blue Hat"
    ["Blue Hat", "Blue Hatt"] (by rfl) (by decide)
  exact ⟨h.1, h.2.1⟩

/-- C4 counterexample: building the filtered inventory from two row
sets whose column schemas differ does NOT fail with a schema-mismatch
error — `pd.concat` aligns the schemas by column name, filling the
missing cells with NaN, and the construction succeeds. -/
theorem C4_counterexample :
    tableA.cols ≠ tableB.cols ∧
    filtered_inventory [tableA] [tableB] =
      .ok ⟨["A", "B"], [[some "1", none], [none, some "2"]]⟩ := by
  refine ⟨by decide, by rfl⟩

/-- C4 (corrected): building the filtered inventory never fails with a
schema-mismatch error — for any nonempty collection of row sets it
succeeds, aligning differing schemas by column name with NaN fill; and
when the schemas all agree (the only case the pipeline produces) it is
exactly the row concatenation with exact-duplicate rows removed keeping
first occurrence order. -/
theorem C4_concat_dedup :
    (∀ ts us : List Table, ts ++ us ≠ [] →
      ∃ t, filtered_inventory ts us = .ok t) ∧
    (∀ (ts us : List Table) (c : List String), c.Nodup →
      (∀ u ∈ ts ++ us, u.cols = c) →
      (∀ u ∈ ts ++ us, ∀ r ∈ u.rows, r.length = c.length) →
      ts ++ us ≠ [] →
      filtered_inventory ts us =
        .ok ⟨c, dedupFirst ((ts ++ us).map Table.rows).flatten⟩) := by
  constructor
  · intro ts us hne
    unfold filtered_inventory
    cases hE : ts ++ us with
    | nil => exact absurd hE hne
    | cons t rest => exact ⟨_, rfl⟩
  · intro ts us c hc hcols hlen hne
    unfold filtered_inventory
    rw [pd_concat_same_schema (ts ++ us) c hc hcols hlen hne]

/-- Witness for C4: a singleton row-set list satisfies the hypotheses
and the construction succeeds with the dedup-of-concatenation shape. -/
theorem C4_witness :
    (∃ t, filtered_inventory [tableA] [] = .ok t) ∧
    filtered_inventory [tableA] [] =
      .ok ⟨["A"], dedupFirst (([tableA] ++ ([] : List Table)).map
        Table.rows).flatten⟩ :=
  ⟨C4_concat_dedup.1 [tableA] [] (by decide),
    C4_concat_dedup.2 [tableA] [] ["A"] (by decide) (by decide) (by decide)
      (by decide)⟩

/-- C5: for every pipeline run that reaches a filtered inventory (on a
well-formed inventory table: no duplicate column names, rectangular
rows), the filtered inventory has no two equal rows and every one of
its rows is a row of the input inventory. -/
theorem C5_filtered_inventory_invariant (selected : List String)
    (inv product : Table) (d : String → String) (th : ℚ) (fi : Table)
    (ps : ProductStep) (hnd : inv.cols.Nodup)
    (hwf : ∀ r ∈ inv.rows, r.length = inv.cols.length)
    (hrun : run_pipeline selected inv product d th = .ok (fi, ps)) :
    fi.rows.Nodup ∧ ∀ r ∈ fi.rows, r ∈ inv.rows := by
  rw [run_pipeline] at hrun
  split at hrun
  · exact absurd hrun (by simp)
  · rename_i out hF
    split at hrun
    · exact absurd hrun (by simp)
    · rename_i fi2 hFI
      rw [Except.ok.injEq, Prod.mk.injEq] at hrun
      set res := resolve_conflicts out.conflicts inv d with hres
      have hprov : ∀ u ∈ out.matched ++ res, ∃ s, u = rowsWithTitle inv s := by
        intro u hu
        rcases List.mem_append.mp hu with h | h
        · exact fuzzy_matched_provenance selected inv th out hF u h
        · rw [hres, resolve_conflicts_eq] at h
          rcases List.mem_map.mp h with ⟨p, _, hp⟩
          exact ⟨d p.1, hp.symm⟩
      cases hL : out.matched ++ res with
      | nil =>
        have hfe : filtered_inventory out.matched res =
            .error "ValueError: No objects to concatenate" := by
          unfold filtered_inventory
          rw [hL]
          rfl
        rw [hfe] at hFI
        exact absurd hFI (by simp)
      | cons t rest =>
        have hcols : ∀ u ∈ out.matched ++ res, u.cols = inv.cols := by
          intro u hu
          obtain ⟨s, rfl⟩ := hprov u hu
          rfl
        have hlen : ∀ u ∈ out.matched ++ res, ∀ r ∈ u.rows,
            r.length = inv.cols.length := by
          intro u hu r hr
          obtain ⟨s, rfl⟩ := hprov u hu
          exact hwf r (rowsWithTitle_rows_subset inv s r hr)
        have hconcat := pd_concat_same_schema (out.matched ++ res) inv.cols
          hnd hcols hlen (by rw [hL]; simp)
        have hFIval : filtered_inventory out.matched res =
            .ok ⟨inv.cols,
              dedupFirst ((out.matched ++ res).map Table.rows).flatten⟩ := by
          unfold filtered_inventory
          rw [hconcat]
        rw [hFIval, Except.ok.injEq] at hFI
        have hfi : fi = ⟨inv.cols,
            dedupFirst ((out.matched ++ res).map Table.rows).flatten⟩ := by
          rw [← hrun.1, hFI]
        constructor
        · rw [hfi]
          exact nodup_dedupFirst _
        · intro r hr
          rw [hfi] at hr
          have hr2 := (mem_dedupFirst r _).mp hr
          rcases List.mem_flatten.mp hr2 with ⟨rows, hrows, hrmem⟩
          rcases List.mem_map.mp hrows with ⟨u, hu, rfl⟩
          obtain ⟨s, rfl⟩ := hprov u hu
          exact rowsWithTitle_rows_subset inv s r hrmem

/-- Witness for C5: a concrete run whose filtered inventory is checked
duplicate-free. -/
theorem C5_witness :
    run_pipeline ["Foo"] invW prodW (fun _ => "Skip") 95 =
      .ok (fiW, ProductStep.skipped) ∧
    fiW.rows.Nodup :=
  ⟨by rfl,
    (C5_filtered_inventory_invariant ["Foo"] invW prodW (fun _ => "Skip")
      95 fiW .skipped (by decide) (by decide) (by rfl)).1⟩

/-- C6: when both the product table and the filtered inventory expose a
Handle column, the product step yields the table whose rows are exactly
(as a set; exact duplicates are dropped) the product rows whose Handle
cell occurs among the filtered inventory Handle cells, compared by
exact equality; when either lacks the column, the step is skipped with
an explicit signal (`ProductStep.skipped`), not an empty table. -/
theorem C6_handle_join (product fi : Table) :
    (("Handle" ∈ product.cols ∧ "Handle" ∈ fi.cols) →
      product_step product fi =
        .filtered ⟨product.cols, dedupFirst (match_handles product fi).rows⟩ ∧
      ∀ r : List Cell,
        r ∈ dedupFirst (match_handles product fi).rows ↔
          r ∈ product.rows ∧
            cellOf product.cols r "Handle" ∈
              fi.rows.map (fun s => cellOf fi.cols s "Handle")) ∧
    (¬ ("Handle" ∈ product.cols ∧ "Handle" ∈ fi.cols) →
      product_step product fi = .skipped) := by
  constructor
  · intro h
    refine ⟨by rw [product_step, if_pos h], fun r => ?_⟩
    rw [mem_dedupFirst]
    show r ∈ (match_handles product fi).rows ↔ _
    rw [match_handles]
    simp only [List.mem_filter, List.contains]
    constructor
    · rintro ⟨h1, h2⟩
      exact ⟨h1, by simpa using h2⟩
    · rintro ⟨h1, h2⟩
      exact ⟨h1, by simpa using h2⟩
  · intro h
    rw [product_step, if_neg h]

/-- Witness for C6: a concrete join (with a duplicate product row
collapsed) and a concrete skip. -/
theorem C6_witness :
    product_step prodC6 fiC6 =
      .filtered ⟨prodC6.cols, dedupFirst (match_handles prodC6 fiC6).rows⟩ ∧
    product_step prodC6 ⟨["X"], []⟩ = .skipped :=
  ⟨((C6_handle_join prodC6 fiC6).1 (by decide)).1,
    (C6_handle_join prodC6 ⟨["X"], []⟩).2 (by decide)⟩

end NewNewApp
